import Mathlib

/-!
Verification of the flowq-app agent SDK core against its specification.

The definitions below are shallow embeddings of the Rust functions named in
their doc comments.  Strings are modelled as `List Char` (Rust `&str` viewed
as a sequence of Unicode scalar values); byte-level behaviour of UTF-8 is
recovered through `charBytes`.  Machine integers are modelled as `Nat` with
explicit wrap-around (`% 2^64`) where Rust release-mode overflow matters.
Fallible operations return `Option`/`Except`; a Rust panic is modelled as a
distinguished outcome.
-/

set_option autoImplicit false

/-- Rust `str::split(sep)` over a character sequence: splits on every
occurrence of `sep`, keeping empty segments (so the result is always
nonempty). -/
def splitOnChar (sep : Char) : List Char → List (List Char)
  | [] => [[]]
  | c :: cs =>
    match splitOnChar sep cs with
    | [] => [[]]
    | h :: t => if c = sep then [] :: h :: t else (c :: h) :: t

/-- Rust `str::contains(pat)` for a fixed pattern: `pat` occurs as a
contiguous subsequence of `s`. -/
def containsSeq (pat : List Char) : List Char → Bool
  | [] => pat.isPrefixOf []
  | c :: cs => pat.isPrefixOf (c :: cs) || containsSeq pat cs

/-- One step of lexical path canonicalization: empty components and `.` are
skipped, `..` pops the last component, anything else is appended.  This is
`Path::canonicalize` restricted to its lexical content (symlink-free
filesystem). -/
def canonStep (acc : List (List Char)) (comp : List Char) : List (List Char) :=
  if comp = [] ∨ comp = ['.'] then acc
  else if comp = ['.', '.'] then acc.dropLast
  else acc ++ [comp]

/-- Lexical canonicalization of a path given as a component list. -/
def canonicalize (p : List (List Char)) : List (List Char) :=
  p.foldl canonStep []

/-- Embedding of `MemoryTool::resolve_path` (src-tauri/src/memory_tool.rs,
lines 119-161).  `memoriesDir` is the component list of
`<workspace>/.flowq/memories`; `requested` is the raw path string argument;
`targetExists` states whether the joined path exists on disk, which decides
whether the canonical-containment re-check of lines 148-158 runs.  `none`
models `Err`. -/
def resolvePath (memoriesDir : List (List Char)) (requested : List Char)
    (targetExists : Bool) : Option (List (List Char)) :=
  if containsSeq ['.', '.'] requested then none
  else if containsSeq ['%', '2', 'e'] requested || containsSeq ['%', '2', 'E'] requested then none
  else if requested.head? = some '/' || requested.head? = some '\\' then none
  else
    let resolved :=
      if requested = [] ∨ requested = ['.'] then memoriesDir
      else memoriesDir ++ splitOnChar '/' requested
    if targetExists ∧ ¬ (canonicalize memoriesDir).isPrefixOf (canonicalize resolved) then none
    else some resolved

/-- Number of bytes of the UTF-8 encoding of a scalar value (Rust
`char::len_utf8`). -/
def charBytes (c : Char) : Nat :=
  if c.val ≤ 0x7F then 1 else if c.val ≤ 0x7FF then 2 else if c.val ≤ 0xFFFF then 3 else 4

/-- Rust `str::len`: length in UTF-8 bytes. -/
def utf8Len (s : List Char) : Nat :=
  (s.map charBytes).sum

/-- Rust `str::is_char_boundary`: byte offset `n` falls on a character
boundary of `s` (offsets past the end are not boundaries). -/
def isCharBoundary : List Char → Nat → Bool
  | _, 0 => true
  | [], _ + 1 => false
  | c :: cs, n + 1 =>
    if charBytes c ≤ n + 1 then isCharBoundary cs (n + 1 - charBytes c) else false

/-- The characters making up the first `n` bytes of `s` (meaningful when `n`
is a character boundary); models the Rust byte slice `&s[..n]`. -/
def takeBytes : List Char → Nat → List Char
  | _, 0 => []
  | [], _ + 1 => []
  | c :: cs, n + 1 =>
    if charBytes c ≤ n + 1 then c :: takeBytes cs (n + 1 - charBytes c) else []

/-- Number of non-overlapping occurrences of a nonempty pattern, scanning
left to right.  The scan consumes at least one character per step, so `fuel`
bounded below by the list length makes the recursion structural. -/
def countMatchesAux (pat : List Char) : Nat → List Char → Nat
  | _, [] => 0
  | 0, _ :: _ => 0
  | fuel + 1, c :: cs =>
    if pat.isPrefixOf (c :: cs) then 1 + countMatchesAux pat fuel (cs.drop (pat.length - 1))
    else countMatchesAux pat fuel cs

/-- Number of non-overlapping occurrences of a nonempty pattern
(Rust `str::matches(pat).count()` for `pat ≠ ""`). -/
def countMatchesPos (pat s : List Char) : Nat :=
  countMatchesAux pat s.length s

/-- Rust `content.matches(pat).count()`: an empty pattern matches at every
character boundary. -/
def countMatches (pat s : List Char) : Nat :=
  if pat = [] then s.length + 1 else countMatchesPos pat s

/-- Replacement of every non-overlapping occurrence of a nonempty pattern,
scanning left to right, with the same fuel device as `countMatchesAux`. -/
def replaceAllAux (pat rep : List Char) : Nat → List Char → List Char
  | _, [] => []
  | 0, s => s
  | fuel + 1, c :: cs =>
    if pat.isPrefixOf (c :: cs) then rep ++ replaceAllAux pat rep fuel (cs.drop (pat.length - 1))
    else c :: replaceAllAux pat rep fuel cs

/-- Replacement of every non-overlapping occurrence of a nonempty
pattern. -/
def replaceAllPos (pat rep s : List Char) : List Char :=
  replaceAllAux pat rep s.length s

/-- Rust `str::replace(pat, rep)`: for an empty pattern the replacement is
inserted at every character boundary. -/
def replaceAll (pat rep s : List Char) : List Char :=
  if pat = [] then rep ++ (s.map (fun c => c :: rep)).flatten
  else replaceAllPos pat rep s

/-- Embedding of `MemoryToolResult` (memory_tool.rs, lines 59-65). -/
structure MemResult where
  success : Bool
  output : String
  error : Option String
deriving DecidableEq, Repr

/-- Embedding of `MemoryToolResult::success`. -/
def memSuccess (output : String) : MemResult :=
  ⟨true, output, none⟩

/-- Embedding of `MemoryToolResult::error`. -/
def memError (message : String) : MemResult :=
  ⟨false, "", some message⟩

/-- Outcome of running `str_replace` on a file's content: either the Rust
code panics, or it completes with a `MemoryToolResult` and the content the
file holds afterwards. -/
inductive StrReplaceOut where
  | panicked
  | completed (res : MemResult) (newContent : List Char)
deriving DecidableEq, Repr

/-- The error message built at memory_tool.rs lines 301-304: the old string
is truncated to its first 50 bytes when longer.  The byte slice
`&old_str[..50]` panics when byte 50 is not a character boundary; that case
is handled by the caller (`strReplaceContent`). -/
def strNotFoundMsg (old : List Char) : String :=
  "String not found in file: '" ++ String.mk (if utf8Len old > 50 then takeBytes old 50 else old) ++ "'"

/-- Embedding of the content-transforming core of `MemoryTool::str_replace`
(memory_tool.rs, lines 278-324), after the path has resolved to an existing
regular file whose content is `content`.  `panicked` models the Rust panic
raised by `&old_str[..50]` when the old string is longer than 50 bytes and
byte 50 is not a character boundary. -/
def strReplaceContent (path : String) (content old new : List Char) : StrReplaceOut :=
  let count := countMatches old content
  if count = 0 then
    if utf8Len old > 50 ∧ ¬ isCharBoundary old 50 then .panicked
    else .completed (memError (strNotFoundMsg old)) content
  else if count > 1 then
    .completed
      (memError ("String found " ++ toString count ++ " times in file. Please provide a more unique string."))
      content
  else
    .completed (memSuccess ("Successfully replaced text in " ++ path)) (replaceAll old new content)

/-- The usize modulus: Rust release builds wrap arithmetic at `2^64`. -/
def usizeMod : Nat := 2 ^ 64

/-- Wrapping usize subtraction (valid for arguments below `2^64`). -/
def wsub (a b : Nat) : Nat :=
  (a + usizeMod - b) % usizeMod

/-- The lines of a file paired with their 1-indexed line numbers. -/
def numberLines (lines : List (List Char)) : List (Nat × List Char) :=
  lines.enum.map (fun p => (p.1 + 1, p.2))

/-- Embedding of the line-selection logic of
`MemoryTool::read_file_with_lines` (memory_tool.rs, lines 218-244): the
1-indexed start is converted with `saturating_sub`, the end is clamped to
the number of lines, and the iterator takes `end - start` elements — a
wrapping usize subtraction.  The `{:4}| ` rendering of each selected line is
abstracted to the pair (1-indexed number, line). -/
def readFileSelection (lines : List (List Char)) (range : Option (Nat × Nat)) :
    List (Nat × List Char) :=
  let n := lines.length
  let se : Nat × Nat :=
    match range with
    | some (s, e) => (s - 1, min e n)
    | none => (0, n)
  ((lines.enum.drop se.1).take (wsub se.2 se.1)).map (fun p => (p.1 + 1, p.2))

/-- Modelled from the spec's words for comparison with `readFileSelection`:
"`range = (start, end)` optional, inclusive, 1-indexed, clamped to file
bounds" — the numbered lines whose 1-indexed number lies in `[s, e]`. -/
def viewRangeSpec (lines : List (List Char)) (s e : Nat) : List (Nat × List Char) :=
  (numberLines lines).filter (fun p => s ≤ p.1 && p.1 ≤ e)

/-- Rust `str::lines()`: split on `'\n'`, drop a final empty segment, and
strip one trailing `'\r'` from each line. -/
def splitLines (s : List Char) : List (List Char) :=
  let parts := splitOnChar '\n' s
  let parts := if parts.getLast? = some [] then parts.dropLast else parts
  parts.map (fun l => if l.getLast? = some '\r' then l.dropLast else l)

/-- The sequential insertion loop of `MemoryTool::insert` (memory_tool.rs,
lines 360-363): the `i`-th new line is inserted at index `idx + i`. -/
def insertSeq (idx : Nat) : Nat → List (List Char) → List (List Char) → List (List Char)
  | _, [], acc => acc
  | i, n :: ns, acc => insertSeq idx (i + 1) ns (acc.insertIdx (idx + i) n)

/-- Embedding of the line-editing core of `MemoryTool::insert`
(memory_tool.rs, lines 327-380), after the path has resolved to an existing
regular file whose lines are `lines`.  `insertLine` is the u32 argument;
`Except.error` carries the error message. -/
def insertModel (lines : List (List Char)) (insertLine : Nat)
    (newStr : List Char) : Except String (List (List Char)) :=
  let insertIdx := insertLine - 1
  if insertIdx > lines.length then
    .error ("Line number " ++ toString insertLine ++ " is beyond file length ("
      ++ toString lines.length ++ ")")
  else
    .ok (insertSeq insertIdx 0 (splitLines newStr) lines)

/-- The deny list `DANGEROUS_ENV_VARS` (patches/claude-agent-sdk/src/
transport/subprocess.rs, lines 22-32). -/
def DANGEROUS_ENV_VARS : List String :=
  ["LD_PRELOAD", "LD_LIBRARY_PATH", "DYLD_INSERT_LIBRARIES", "DYLD_LIBRARY_PATH",
   "PATH", "NODE_OPTIONS", "PYTHONPATH", "PERL5LIB", "RUBYLIB"]

/-- `HashMap::insert` on an association list with distinct keys: replace the
existing binding or append a new one. -/
def envInsert (m : List (String × String)) (k v : String) : List (String × String) :=
  if m.any (fun kv => kv.1 = k) then m.map (fun kv => if kv.1 = k then (k, v) else kv)
  else m ++ [(k, v)]

/-- Embedding of the environment construction in
`SubprocessTransport::connect` (subprocess.rs, lines 364-382): start from
the full parent environment snapshot (`env::vars().collect()`), overlay the
caller-supplied variables except those on the deny list, then insert the two
SDK marker variables and, when a working directory is set, `PWD`. -/
def buildProcessEnv (parentEnv userEnv : List (String × String)) (cwd : Option String)
    (version : String) : List (String × String) :=
  let env0 := parentEnv
  let env1 := userEnv.foldl
    (fun acc kv => if DANGEROUS_ENV_VARS.contains kv.1 then acc else envInsert acc kv.1 kv.2)
    env0
  let env2 := envInsert env1 "CLAUDE_CODE_ENTRYPOINT" "sdk-rust"
  let env3 := envInsert env2 "CLAUDE_AGENT_SDK_VERSION" version
  match cwd with
  | some c => envInsert env3 "PWD" c
  | none => env3

/-- Lookup in the environment association list. -/
def envLookup (m : List (String × String)) (k : String) : Option String :=
  (m.find? (fun kv => kv.1 = k)).map (fun kv => kv.2)

/-- Minimal JSON model for the MCP dispatcher: only the shapes
`handle_tools_call` inspects are distinguished. -/
inductive MJson where
  | null
  | str (s : String)
  | num (n : Int)
  | obj (fields : List (String × MJson))
  | arr (xs : List MJson)

/-- serde_json indexing `value[key]`: a missing field or a non-object value
yields `Null`. -/
def MJson.getField : MJson → String → MJson
  | .obj fields, k => ((fields.find? (fun f => f.1 = k)).map (fun f => f.2)).getD .null
  | _, _ => .null

/-- serde_json `as_str`. -/
def MJson.asStr : MJson → Option String
  | .str s => some s
  | _ => none

/-- Embedding of `McpError` (patches/claude-agent-sdk/src/mcp/protocol.rs,
lines 59-69). -/
structure MToolError where
  code : Int
  message : String
deriving DecidableEq, Repr

/-- `McpError::method_not_found` (protocol.rs, lines 72-79). -/
def methodNotFound (method : String) : MToolError :=
  ⟨-32601, "Method not found: " ++ method⟩

/-- `McpError::invalid_params` (protocol.rs, lines 81-88). -/
def invalidParams (message : String) : MToolError :=
  ⟨-32602, message⟩

/-- `McpError::internal_error` (protocol.rs, lines 90-97). -/
def internalError (message : String) : MToolError :=
  ⟨-32603, message⟩

/-- `McpError::tool_not_found` (protocol.rs, lines 99-106). -/
def toolNotFound (toolName : String) : MToolError :=
  ⟨-32001, "Tool not found: " ++ toolName⟩

/-- A JSON-RPC response: success with a result, or failure with an error
(protocol.rs, `JsonRpcResponse::success` / `::error`). -/
inductive MResponse where
  | success (id : MJson) (result : MJson)
  | failure (id : MJson) (err : MToolError)

/-- A JSON-RPC request (protocol.rs, `JsonRpcRequest`; the `jsonrpc` version
field plays no role in dispatch). -/
structure MRequest where
  id : Option MJson
  method : String
  params : Option MJson

/-- A registered tool table: name to handler.  A handler failure
(`Except.error`) models the Rust handler returning `Err`. -/
abbrev MToolTable := List (String × (MJson → Except String MJson))

/-- Embedding of `SdkMcpServer::handle_tools_call` (patches/claude-agent-sdk/
src/mcp/server.rs, lines 194-257).  Result serialization (line 247) is
modelled as always succeeding. -/
def handleToolsCall (tools : MToolTable) (rid : MJson) (params : Option MJson) : MResponse :=
  match params with
  | none => .failure rid (invalidParams "tools/call requires parameters")
  | some p =>
    match (p.getField "name").asStr with
    | none => .failure rid (invalidParams "Missing tool name in parameters")
    | some toolName =>
      match (tools.find? (fun t => t.1 = toolName)).map (fun t => t.2) with
      | none => .failure rid (toolNotFound toolName)
      | some handler =>
        match handler (p.getField "arguments") with
        | .ok r => .success rid r
        | .error e => .failure rid (internalError ("Tool execution failed: " ++ e))

/-- Embedding of `SdkMcpServer::handle_request` (server.rs, lines 168-191).
The `tools/list` payload is abstracted to the list of registered tool
names. -/
def handleRequest (tools : MToolTable) (req : MRequest) : MResponse :=
  let rid := req.id.getD .null
  if req.method = "tools/list" then
    .success rid (.obj [("tools", .arr (tools.map (fun t => .str t.1)))])
  else if req.method = "tools/call" then
    handleToolsCall tools rid req.params
  else
    .failure rid (methodNotFound req.method)

/-- Embedding of `HookManager::matches` (patches/claude-agent-sdk/src/hooks/
mod.rs, lines 85-99). -/
def hookMatches (matcher : Option (List Char)) (toolName : Option (List Char)) : Bool :=
  match matcher, toolName with
  | none, _ => true
  | some pat, some name =>
    if pat = ['*'] then true
    else pat = name || (splitOnChar '|' pat).any (fun p => p = name)
  | some _, none => false

/-- Embedding of `PermissionResult` (types referenced by permissions/mod.rs):
allow with optional rewritten input and permission updates, or deny with a
message and an interrupt flag. -/
inductive PermResult (Input Upd : Type) where
  | allow (updatedInput : Option Input) (updatedPermissions : Option Upd)
  | deny (message : String) (interrupt : Bool)
deriving DecidableEq

/-- Embedding of `PermissionManager` (patches/claude-agent-sdk/src/
permissions/mod.rs, lines 14-21).  The async callback is modelled as a pure
function into `Except` (its `Result`). -/
structure PermManager (Input Upd Ctx Err : Type) where
  callback : Option (String → Input → Ctx → Except Err (PermResult Input Upd))
  allowedTools : Option (List String)
  disallowedTools : List String

/-- Embedding of `PermissionManager::can_use_tool` (permissions/mod.rs,
lines 57-95). -/
def canUseTool {Input Upd Ctx Err : Type} (m : PermManager Input Upd Ctx Err)
    (toolName : String) (toolInput : Input) (ctx : Ctx) :
    Except Err (PermResult Input Upd) :=
  if m.disallowedTools.contains toolName then
    .ok (.deny ("Tool " ++ toolName ++ " is disallowed") false)
  else if (match m.allowedTools with
           | some allowed => !allowed.contains toolName
           | none => false) then
    .ok (.deny ("Tool " ++ toolName ++ " is not in allowed list") false)
  else
    match m.callback with
    | some cb => cb toolName toolInput ctx
    | none => .ok (.allow none none)

/-- Stop reasons distinguished by the direct-provider loop. -/
inductive StopReason where
  | endTurn
  | toolUse
  | other (s : String)
deriving DecidableEq

/-- A response content block as far as text extraction is concerned
(`filter_map(|c| c.text.clone())`). -/
structure ContentBlockM where
  text : Option String
deriving DecidableEq

/-- One model response: its stop reason and content blocks. -/
structure ModelResponse where
  stop : StopReason
  content : List ContentBlockM
deriving DecidableEq

/-- Concatenation of the text blocks of a response (chat.rs, lines 432-437:
`filter_map(|c| c.text.clone()).collect::<Vec<_>>().join("")`). -/
def extractText (r : ModelResponse) : String :=
  String.join (r.content.filterMap (fun c => c.text))

/-- The direct-provider iteration cap (chat.rs, lines 385 and 718:
`const MAX_ITERATIONS: u32 = 10`). -/
def MAX_ITERATIONS : Nat := 10

/-- Embedding of the tool-use loop shared by `send_anthropic` (chat.rs,
lines 384-525) and `send_bedrock` (chat.rs, lines 717-843): `resp i` is the
model's response to the `i`-th call (the message-list bookkeeping does not
affect call count or exit text and is abstracted away); `hasMemoryTool`
states whether a workspace configured the memory tool.  The result is the
number of model calls performed and the final text. -/
def providerLoopFrom (resp : Nat → ModelResponse) (hasMemoryTool : Bool) (i : Nat) :
    Nat × String :=
  if _h : i < MAX_ITERATIONS then
    let r := resp i
    match r.stop with
    | .endTurn => (i + 1, extractText r)
    | .toolUse =>
      if hasMemoryTool then providerLoopFrom resp hasMemoryTool (i + 1)
      else (i + 1, extractText r)
    | .other _ => (i + 1, extractText r)
  else (i, "")
termination_by MAX_ITERATIONS - i

/-- The direct-provider loop started at iteration 0. -/
def providerLoop (resp : Nat → ModelResponse) (hasMemoryTool : Bool) : Nat × String :=
  providerLoopFrom resp hasMemoryTool 0

/-! ## Helper lemmas -/

/-- Inserting at the length of the left part of an append places the element
between the parts. -/
theorem insertIdx_append_length {α : Type} (a : α) :
    ∀ (l1 l2 : List α), List.insertIdx l1.length a (l1 ++ l2) = l1 ++ a :: l2 := by
  intro l1
  induction l1 with
  | nil => intro l2; simp
  | cons x l1 ih => intro l2; simp [List.insertIdx_succ_cons, ih l2]

/-- The sequential insertion loop splices the new lines in at the insertion
point. -/
theorem insertSeq_splice :
    ∀ (ns pre mid suf : List (List Char)),
      insertSeq pre.length mid.length ns (pre ++ (mid ++ suf)) = pre ++ (mid ++ (ns ++ suf)) := by
  intro ns
  induction ns with
  | nil => intro pre mid suf; rfl
  | cons n ns ih =>
    intro pre mid suf
    show insertSeq pre.length (mid.length + 1) ns
        (List.insertIdx (pre.length + mid.length) n (pre ++ (mid ++ suf)))
      = pre ++ (mid ++ (n :: ns ++ suf))
    have h1 : List.insertIdx (pre.length + mid.length) n (pre ++ (mid ++ suf))
        = pre ++ ((mid ++ [n]) ++ suf) := by
      have := insertIdx_append_length n (pre ++ mid) suf
      simpa [List.append_assoc] using this
    rw [h1]
    have h2 : mid.length + 1 = (mid ++ [n]).length := by simp
    rw [h2]
    have h3 := ih pre (mid ++ [n]) suf
    simp only [List.append_assoc] at h3 ⊢
    simpa using h3

/-! ## C1 -/

/-- C1: the claim states that deny-listed variables already present in the
parent environment are never propagated to the Agent CLI child.  The code
(subprocess.rs, lines 364-372) snapshots the full parent environment and
filters only the caller-supplied overlay, so a parent `LD_PRELOAD` value
survives into the environment handed to the child.  This theorem evaluates
the embedded environment construction at that failing input. -/
theorem C1_parent_dangerous_env_propagated :
    envLookup (buildProcessEnv [("LD_PRELOAD", "/tmp/evil.so")] [] none "0.1.0") "LD_PRELOAD"
      = some "/tmp/evil.so" ∧ "LD_PRELOAD" ∈ DANGEROUS_ENV_VARS := by
  exact ⟨rfl, by decide⟩

/-! ## C3 -/

/-- C3: the claim states that executing any memory-tool command never
panics, in particular `str_replace` with an absent `old_str` longer than 50
bytes of multi-byte UTF-8.  The code slices `&old_str[..50]` (memory_tool.rs
line 303), which panics when byte 50 is not a character boundary: for an
old string of seventeen three-byte characters (51 bytes) byte 50 falls
inside the final character.  This theorem evaluates the embedding at that
failing input. -/
theorem C3_str_replace_panics :
    countMatches (List.replicate 17 '€') ['x'] = 0 ∧
      utf8Len (List.replicate 17 '€') = 51 ∧
      isCharBoundary (List.replicate 17 '€') 50 = false ∧
      strReplaceContent "notes.md" ['x'] (List.replicate 17 '€') [] = .panicked := by
  decide

/-! ## C5 -/

/-- C5 counterexample: the claim states that `insert(path, line, text)`
fails whenever `line > N` for a file of `N` lines.  On a one-line file,
`insert` with `line = 2` succeeds and appends the new line, because the
source only rejects `line - 1 > N` (memory_tool.rs line 351). -/
theorem C5_counterexample :
    insertModel [['a']] 2 ['b'] = .ok [['a'], ['b']] ∧
      ∀ msg, insertModel [['a']] 2 ['b'] ≠ .error msg := by
  refine ⟨rfl, fun msg h => ?_⟩
  rw [show insertModel [['a']] 2 ['b'] = .ok [['a'], ['b']] from rfl] at h
  exact Except.noConfusion h

/-- C5 (amended): `insert` fails, with an error naming the line number and
the file length, exactly when `line - 1 > N` (that is, `line > N + 1`);
for `line ≤ N + 1` it succeeds and splices `text.lines()` in before the
1-indexed position `line` (with `line = 0` treated like `line = 1` by the
saturating subtraction, and `line = N + 1` appending at the end), leaving
the other lines in order. -/
theorem C5_insert_amended (lines : List (List Char)) (insertLine : Nat) (newStr : List Char) :
    insertModel lines insertLine newStr =
      if insertLine - 1 ≤ lines.length then
        .ok (lines.take (insertLine - 1) ++ (splitLines newStr ++ lines.drop (insertLine - 1)))
      else
        .error ("Line number " ++ toString insertLine ++ " is beyond file length ("
          ++ toString lines.length ++ ")") := by
  unfold insertModel
  by_cases h : insertLine - 1 ≤ lines.length
  · rw [if_neg (by omega), if_pos h]
    have hpre : (lines.take (insertLine - 1)).length = insertLine - 1 := by
      simp [List.length_take]; omega
    have hsplice := insertSeq_splice (splitLines newStr) (lines.take (insertLine - 1)) []
      (lines.drop (insertLine - 1))
    simp only [List.nil_append, List.length_nil] at hsplice
    rw [hpre] at hsplice
    rw [List.take_append_drop] at hsplice
    rw [hsplice]
  · rw [if_pos (by omega), if_neg h]

/-! ## C7 -/

/-- C7 counterexample: the claim states that a `tools/call` request whose
params lack a string field `name` yields a `method_not_found` error.  The
source (server.rs, lines 210-218) returns `invalid_params` (code -32602)
instead, which differs from `method_not_found` (code -32601). -/
theorem C7_counterexample :
    handleRequest [] ⟨some (.num 1), "tools/call", some (.obj [])⟩
        = .failure (.num 1) (invalidParams "Missing tool name in parameters") ∧
      (invalidParams "Missing tool name in parameters").code = -32602 ∧
      ∀ m, (invalidParams "Missing tool name in parameters").code ≠ (methodNotFound m).code := by
  refine ⟨rfl, rfl, fun m => ?_⟩
  show (-32602 : Int) ≠ -32601
  decide

/-- C7 (amended): on `tools/call`, missing params or a params object without
a string `name` field yield `invalid_params` (code -32602, not
`method_not_found`); a present `name` naming no registered tool yields
`tool_not_found` (code -32001); a handler error becomes `internal_error`
(code -32603); and any method other than `tools/list` and `tools/call`
yields `method_not_found` (code -32601). -/
theorem C7_dispatch_amended (tools : MToolTable) (req : MRequest) :
    (req.method ≠ "tools/list" → req.method ≠ "tools/call" →
      handleRequest tools req = .failure (req.id.getD .null) (methodNotFound req.method)) ∧
    (req.method = "tools/call" → req.params = none →
      handleRequest tools req
        = .failure (req.id.getD .null) (invalidParams "tools/call requires parameters")) ∧
    (req.method = "tools/call" → ∀ p, req.params = some p → (p.getField "name").asStr = none →
      handleRequest tools req
        = .failure (req.id.getD .null) (invalidParams "Missing tool name in parameters")) ∧
    (req.method = "tools/call" → ∀ p name, req.params = some p →
      (p.getField "name").asStr = some name →
      tools.find? (fun t => t.1 = name) = none →
      handleRequest tools req = .failure (req.id.getD .null) (toolNotFound name)) ∧
    (req.method = "tools/call" → ∀ p name h e, req.params = some p →
      (p.getField "name").asStr = some name →
      (tools.find? (fun t => t.1 = name)).map (fun t => t.2) = some h →
      h (p.getField "arguments") = .error e →
      handleRequest tools req
        = .failure (req.id.getD .null) (internalError ("Tool execution failed: " ++ e))) := by
  refine ⟨?_, ?_, ?_, ?_, ?_⟩
  · intro h1 h2
    simp [handleRequest, h1, h2]
  · intro h1 h2
    simp [handleRequest, handleToolsCall, h1, h2]
  · intro h1 p hp hname
    simp [handleRequest, handleToolsCall, h1, hp, hname]
  · intro h1 p name hp hname hfind
    simp [handleRequest, handleToolsCall, h1, hp, hname, hfind]
  · intro h1 p name h e hp hname hfind hcall
    simp [handleRequest, handleToolsCall, h1, hp, hname, hfind, hcall]

/-- C7 witness: the amended dispatch behaviour at concrete requests — an
unknown method, a call with a missing name, a call naming an unregistered
tool, and a call whose handler fails. -/
theorem C7_dispatch_amended_witness :
    handleRequest [] ⟨some (.num 7), "prompts/get", none⟩
        = .failure (.num 7) (methodNotFound "prompts/get") ∧
    handleRequest [] ⟨some (.num 8), "tools/call", none⟩
        = .failure (.num 8) (invalidParams "tools/call requires parameters") ∧
    handleRequest [] ⟨some (.num 9), "tools/call", some (.obj [("name", .str "echo")])⟩
        = .failure (.num 9) (toolNotFound "echo") ∧
    handleRequest [("echo", fun _ => .error "boom")]
        ⟨some (.num 10), "tools/call", some (.obj [("name", .str "echo")])⟩
        = .failure (.num 10) (internalError ("Tool execution failed: " ++ "boom")) := by
  refine ⟨?_, ?_, ?_, ?_⟩
  · exact (C7_dispatch_amended [] ⟨some (.num 7), "prompts/get", none⟩).1
      (by decide) (by decide)
  · exact (C7_dispatch_amended [] ⟨some (.num 8), "tools/call", none⟩).2.1 rfl rfl
  · exact (C7_dispatch_amended [] ⟨some (.num 9), "tools/call", some (.obj [("name", .str "echo")])⟩).2.2.2.1
      rfl (.obj [("name", .str "echo")]) "echo" rfl rfl rfl
  · exact (C7_dispatch_amended [("echo", fun _ => .error "boom")]
        ⟨some (.num 10), "tools/call", some (.obj [("name", .str "echo")])⟩).2.2.2.2
      rfl (.obj [("name", .str "echo")]) "echo" (fun _ => .error "boom") "boom" rfl rfl rfl rfl

/-! ## C8 -/

/-- C8 counterexample: the claim states that for a non-null, non-wildcard
pattern `p` and present tool name `n`, the matcher matches exactly when
`n` is a member of `p` split on the pipe character.  The source first tests
`pattern == name` (hooks/mod.rs line 95), so a tool name that itself
contains a pipe matches its identical pattern although it is not a member
of the split. -/
theorem C8_counterexample :
    hookMatches (some ['a', '|', 'b']) (some ['a', '|', 'b']) = true ∧
      ['a', '|', 'b'] ∉ splitOnChar '|' ['a', '|', 'b'] ∧
      ['a', '|', 'b'] ≠ ['*'] := by
  decide

/-- C8 (amended): a `None` matcher matches every tool name and is the only
matcher that matches an absent tool name; for a present name `n`, a pattern
`p` matches exactly when `p` is the wildcard, or `p` equals `n` verbatim,
or `n` is a member of `p` split on the pipe character (plain literal
comparison). -/
theorem C8_matches_amended :
    (∀ t, hookMatches none t = true) ∧
    (∀ p, hookMatches (some p) none = false) ∧
    (∀ p n, hookMatches (some p) (some n) = true ↔
      (p = ['*'] ∨ p = n ∨ n ∈ splitOnChar '|' p)) := by
  refine ⟨fun t => rfl, fun p => rfl, fun p n => ?_⟩
  by_cases h : p = ['*']
  · subst h
    simp [hookMatches]
  · simp only [hookMatches, if_neg h, Bool.or_eq_true, decide_eq_true_eq, List.any_eq_true]
    constructor
    · rintro (rfl | ⟨x, hx, rfl⟩)
      · exact Or.inr (Or.inl rfl)
      · exact Or.inr (Or.inr hx)
    · rintro (h1 | rfl | hn)
      · exact absurd h1 h
      · exact Or.inl rfl
      · exact Or.inr ⟨n, hn, rfl⟩

/-! ## C9 -/

/-- C9: the permission check evaluates in the claimed order — a deny-list
hit always denies; otherwise a configured allow list missing the tool
denies; otherwise a configured callback decides; otherwise the result is
`Allow` with no updated input and no updated permissions. -/
theorem C9_can_use_tool_order {Input Upd Ctx Err : Type} (m : PermManager Input Upd Ctx Err)
    (tool : String) (input : Input) (ctx : Ctx) :
    (tool ∈ m.disallowedTools →
      canUseTool m tool input ctx
        = .ok (.deny ("Tool " ++ tool ++ " is disallowed") false)) ∧
    (tool ∉ m.disallowedTools → ∀ allowed, m.allowedTools = some allowed → tool ∉ allowed →
      canUseTool m tool input ctx
        = .ok (.deny ("Tool " ++ tool ++ " is not in allowed list") false)) ∧
    (tool ∉ m.disallowedTools → (∀ allowed, m.allowedTools = some allowed → tool ∈ allowed) →
      ∀ cb, m.callback = some cb → canUseTool m tool input ctx = cb tool input ctx) ∧
    (tool ∉ m.disallowedTools → (∀ allowed, m.allowedTools = some allowed → tool ∈ allowed) →
      m.callback = none → canUseTool m tool input ctx = .ok (.allow none none)) := by
  refine ⟨?_, ?_, ?_, ?_⟩
  · intro hd
    simp [canUseTool, List.contains, hd]
  · intro hd allowed hall hmem
    simp [canUseTool, List.contains, hd, hall, hmem]
  · intro hd hall cb hcb
    have hA : (match m.allowedTools with
        | some allowed => !decide (tool ∈ allowed)
        | none => false) = false := by
      cases hAT : m.allowedTools with
      | none => rfl
      | some allowed => simp [hall allowed hAT]
    simp [canUseTool, List.contains, hd, hA, hcb]
  · intro hd hall hcb
    have hA : (match m.allowedTools with
        | some allowed => !decide (tool ∈ allowed)
        | none => false) = false := by
      cases hAT : m.allowedTools with
      | none => rfl
      | some allowed => simp [hall allowed hAT]
    simp [canUseTool, List.contains, hd, hA, hcb]

/-- C9 witness: the four evaluation branches at concrete permission
managers. -/
theorem C9_can_use_tool_order_witness :
    canUseTool (⟨none, none, ["Bash"]⟩ : PermManager Unit Unit Unit Unit) "Bash" () ()
        = .ok (.deny ("Tool " ++ "Bash" ++ " is disallowed") false) ∧
    canUseTool (⟨none, some ["Read"], []⟩ : PermManager Unit Unit Unit Unit) "Bash" () ()
        = .ok (.deny ("Tool " ++ "Bash" ++ " is not in allowed list") false) ∧
    canUseTool (⟨some (fun _ _ _ => .ok (.deny "callback says no" true)), none, []⟩ :
        PermManager Unit Unit Unit Unit) "Bash" () ()
        = .ok (.deny "callback says no" true) ∧
    canUseTool (⟨none, none, []⟩ : PermManager Unit Unit Unit Unit) "Bash" () ()
        = .ok (.allow none none) := by
  refine ⟨?_, ?_, ?_, ?_⟩
  · exact (C9_can_use_tool_order ⟨none, none, ["Bash"]⟩ "Bash" () ()).1 (by decide)
  · exact (C9_can_use_tool_order ⟨none, some ["Read"], []⟩ "Bash" () ()).2.1
      (by decide) ["Read"] rfl (by decide)
  · exact (C9_can_use_tool_order ⟨some (fun _ _ _ => .ok (.deny "callback says no" true)), none, []⟩
        "Bash" () ()).2.2.1 (by decide) (fun allowed h => Option.noConfusion h)
      (fun _ _ _ => .ok (.deny "callback says no" true)) rfl
  · exact (C9_can_use_tool_order ⟨none, none, []⟩ "Bash" () ()).2.2.2 (by decide)
      (fun allowed h => Option.noConfusion h) rfl

/-! ## C10 -/

/-- The loop counter stays within the iteration cap. -/
theorem providerLoopFrom_le (resp : Nat → ModelResponse) (b : Bool) :
    ∀ d i, MAX_ITERATIONS - i ≤ d → i ≤ MAX_ITERATIONS →
      (providerLoopFrom resp b i).1 ≤ MAX_ITERATIONS := by
  intro d
  induction d with
  | zero =>
    intro i hd hi
    unfold providerLoopFrom
    have hni : ¬ i < MAX_ITERATIONS := by omega
    simp [hni]
    omega
  | succ d ih =>
    intro i hd hi
    unfold providerLoopFrom
    by_cases hlt : i < MAX_ITERATIONS
    · simp only [hlt, dif_pos]
      cases hst : (resp i).stop with
      | endTurn => simpa using hlt
      | toolUse =>
        cases b with
        | true =>
          show (providerLoopFrom resp true (i + 1)).1 ≤ MAX_ITERATIONS
          exact ih (i + 1) (by omega) (by omega)
        | false =>
          show ((i + 1, extractText (resp i)) : Nat × String).1 ≤ MAX_ITERATIONS
          simpa using hlt
      | other s => simpa using hlt
    · simp [hlt]
      omega

/-- C10: the direct-provider tool-use loop performs at most 10 model calls
regardless of the stop reasons the model returns, and a first response whose
stop reason is `end_turn`, unrecognized, or `tool_use` without a configured
memory tool exits after exactly one call with the concatenated text
blocks. -/
theorem C10_provider_loop_bounded (resp : Nat → ModelResponse) (hasTool : Bool) :
    (providerLoop resp hasTool).1 ≤ 10 ∧
    (((resp 0).stop = .endTurn ∨ (∃ s, (resp 0).stop = .other s) ∨
        ((resp 0).stop = .toolUse ∧ hasTool = false)) →
      providerLoop resp hasTool = (1, extractText (resp 0))) := by
  constructor
  · exact providerLoopFrom_le resp hasTool MAX_ITERATIONS 0 (by omega) (by omega)
  · intro h
    unfold providerLoop providerLoopFrom
    have h0 : (0 : Nat) < MAX_ITERATIONS := by decide
    rcases h with h | ⟨s, h⟩ | ⟨h, hb⟩ <;> simp [h0, h]
    subst hb
    simp

/-- C10 witness: a first response with stop reason `end_turn` exits the loop
after one model call with its text. -/
theorem C10_provider_loop_bounded_witness :
    providerLoop (fun _ => ⟨.endTurn, [⟨some "done"⟩]⟩) true
      = (1, extractText ⟨.endTurn, [⟨some "done"⟩]⟩) :=
  (C10_provider_loop_bounded (fun _ => ⟨.endTurn, [⟨some "done"⟩]⟩) true).2 (Or.inl rfl)

/-! ## C2 -/

/-- A contiguous occurrence is detected by the scanning `containsSeq`. -/
theorem containsSeq_of_occurrence (pat : List Char) :
    ∀ s, pat <:+: s → containsSeq pat s = true := by
  intro s
  induction s with
  | nil =>
    intro h
    rw [List.infix_nil] at h
    subst h
    rfl
  | cons c cs ih =>
    intro h
    rw [List.infix_cons_iff] at h
    unfold containsSeq
    rcases h with h | h
    · rw [List.isPrefixOf_iff_prefix.mpr h, Bool.true_or]
    · rw [ih h, Bool.or_true]

/-- Every segment produced by `splitOnChar` occurs contiguously in the input;
the first segment is even a prefix. -/
theorem splitOnChar_shape (sep : Char) :
    ∀ l, ∃ h t, splitOnChar sep l = h :: t ∧ h <+: l ∧ ∀ x ∈ t, x <:+: l := by
  intro l
  induction l with
  | nil => exact ⟨[], [], rfl, List.nil_prefix, by simp⟩
  | cons c cs ih =>
    obtain ⟨h, t, heq, hpre, htl⟩ := ih
    by_cases hc : c = sep
    · refine ⟨[], h :: t, ?_, List.nil_prefix, ?_⟩
      · unfold splitOnChar
        rw [heq]
        simp [hc]
      · intro x hx
        rcases List.mem_cons.mp hx with rfl | hx
        · exact List.infix_cons hpre.isInfix
        · exact List.infix_cons (htl x hx)
    · refine ⟨c :: h, t, ?_, ?_, ?_⟩
      · unfold splitOnChar
        rw [heq]
        simp [hc]
      · exact List.cons_prefix_cons.mpr ⟨rfl, hpre⟩
      · intro x hx
        exact List.infix_cons (htl x hx)

/-- Membership in a split yields a contiguous occurrence in the input. -/
theorem mem_splitOnChar_occurrence (sep : Char) (l x : List Char)
    (hx : x ∈ splitOnChar sep l) : x <:+: l := by
  obtain ⟨h, t, heq, hpre, htl⟩ := splitOnChar_shape sep l
  rw [heq] at hx
  rcases List.mem_cons.mp hx with rfl | hx
  · exact hpre.isInfix
  · exact htl x hx

/-- Canonicalization never drops below the accumulator as long as no `..`
component appears. -/
theorem foldl_canonStep_no_dotdot :
    ∀ (comps : List (List Char)), (∀ c ∈ comps, c ≠ ['.', '.']) →
      ∀ acc, acc <+: comps.foldl canonStep acc := by
  intro comps
  induction comps with
  | nil => intro _ acc; exact List.prefix_rfl
  | cons c cs ih =>
    intro hno acc
    have hc : c ≠ ['.', '.'] := hno c (List.mem_cons_self c cs)
    have step : acc <+: canonStep acc c := by
      unfold canonStep
      by_cases h1 : c = [] ∨ c = ['.']
      · rw [if_pos h1]
      · rw [if_neg h1, if_neg hc]
        exact List.prefix_append acc [c]
    exact step.trans (ih (fun x hx => hno x (List.mem_cons_of_mem c hx)) (canonStep acc c))

/-- Canonicalization is the identity on paths made of ordinary components. -/
theorem foldl_canonStep_normal :
    ∀ (p : List (List Char)), (∀ c ∈ p, c ≠ [] ∧ c ≠ ['.'] ∧ c ≠ ['.', '.']) →
      ∀ acc, p.foldl canonStep acc = acc ++ p := by
  intro p
  induction p with
  | nil => intro _ acc; simp
  | cons c cs ih =>
    intro hp acc
    obtain ⟨h1, h2, h3⟩ := hp c (List.mem_cons_self c cs)
    have hstep : canonStep acc c = acc ++ [c] := by
      unfold canonStep
      rw [if_neg (by tauto), if_neg h3]
    show List.foldl canonStep (canonStep acc c) cs = acc ++ c :: cs
    rw [hstep, ih (fun x hx => hp x (List.mem_cons_of_mem c hx)) (acc ++ [c])]
    simp

/-- C2: every path accepted by `resolve_path` stays inside the memories
root: if `resolve_path(p)` returns `Ok(q)`, the canonical form of `q`
extends the canonical form of the memories root.  `root` ranges over
component lists made of ordinary components (no empty, `.` or `..`
segments), as `<workspace>/.flowq/memories` is; canonicalization is
modelled lexically (symlink-free filesystem). -/
theorem C2_resolve_path_within_root (root : List (List Char))
    (hroot : ∀ c ∈ root, c ≠ [] ∧ c ≠ ['.'] ∧ c ≠ ['.', '.'])
    (p : List Char) (ex : Bool) (q : List (List Char))
    (h : resolvePath root p ex = some q) :
    canonicalize root <+: canonicalize q := by
  have hcroot : canonicalize root = root := by
    unfold canonicalize
    rw [foldl_canonStep_normal root hroot []]
    simp
  have hno : containsSeq ['.', '.'] p = false → ∀ c ∈ splitOnChar '/' p, c ≠ ['.', '.'] := by
    intro h1 c hc hcontra
    subst hcontra
    rw [containsSeq_of_occurrence _ p (mem_splitOnChar_occurrence '/' p _ hc)] at h1
    exact Bool.noConfusion h1
  have hmain : root <+: canonicalize (root ++ splitOnChar '/' p) →
      canonicalize root <+: canonicalize (root ++ splitOnChar '/' p) := by
    rw [hcroot]; exact id
  unfold resolvePath at h
  by_cases h1 : containsSeq ['.', '.'] p = true
  · rw [if_pos h1] at h
    exact Option.noConfusion h
  · rw [if_neg h1] at h
    split at h
    · exact Option.noConfusion h
    split at h
    · exact Option.noConfusion h
    split at h
    · rename_i hp
      have hz : (if ex = true ∧ ¬(canonicalize root).isPrefixOf (canonicalize root) = true
          then none else some root) = some q := h
      split at hz
      · exact Option.noConfusion hz
      · obtain rfl : root = q := Option.some.inj hz
        exact List.prefix_rfl
    · rename_i hp
      have hz : (if ex = true ∧
            ¬(canonicalize root).isPrefixOf (canonicalize (root ++ splitOnChar '/' p)) = true
          then none else some (root ++ splitOnChar '/' p)) = some q := h
      split at hz
      · exact Option.noConfusion hz
      · obtain rfl : root ++ splitOnChar '/' p = q := Option.some.inj hz
        apply hmain
        have hq : canonicalize (root ++ splitOnChar '/' p)
            = List.foldl canonStep root (splitOnChar '/' p) := by
          unfold canonicalize
          rw [List.foldl_append, foldl_canonStep_normal root hroot [], List.nil_append]
        rw [hq]
        exact foldl_canonStep_no_dotdot (splitOnChar '/' p)
          (hno (Bool.eq_false_iff.mpr h1)) root

/-- C2 witness: a concrete resolution inside a concrete root. -/
theorem C2_resolve_path_within_root_witness :
    canonicalize [['m'], ['s']] <+: canonicalize [['m'], ['s'], ['a'], ['b', '.', 'm', 'd']] :=
  C2_resolve_path_within_root [['m'], ['s']] (by decide)
    ['a', '/', 'b', '.', 'm', 'd'] false [['m'], ['s'], ['a'], ['b', '.', 'm', 'd']] (by decide)

/-! ## C6 -/

/-- The fuel argument of `countMatchesAux` is irrelevant once it covers the
list length. -/
theorem countMatchesAux_fuel (pat : List Char) :
    ∀ f1, ∀ s : List Char, s.length ≤ f1 → ∀ f2, s.length ≤ f2 →
      countMatchesAux pat f1 s = countMatchesAux pat f2 s := by
  intro f1
  induction f1 with
  | zero =>
    intro s hs f2 _
    have : s = [] := List.length_eq_zero.mp (Nat.le_zero.mp hs)
    subst this
    cases f2 <;> rfl
  | succ f1 ih =>
    intro s hs f2 hs2
    cases s with
    | nil => cases f2 <;> rfl
    | cons c cs =>
      cases f2 with
      | zero => exact absurd hs2 (by simp)
      | succ f2 =>
        show (if pat.isPrefixOf (c :: cs) then 1 + countMatchesAux pat f1 (cs.drop (pat.length - 1))
            else countMatchesAux pat f1 cs)
          = (if pat.isPrefixOf (c :: cs) then 1 + countMatchesAux pat f2 (cs.drop (pat.length - 1))
            else countMatchesAux pat f2 cs)
        have hcs : cs.length ≤ f1 := by simp at hs; omega
        have hcs2 : cs.length ≤ f2 := by simp at hs2; omega
        have hdrop1 : (cs.drop (pat.length - 1)).length ≤ f1 := by
          rw [List.length_drop]; omega
        have hdrop2 : (cs.drop (pat.length - 1)).length ≤ f2 := by
          rw [List.length_drop]; omega
        by_cases hpre : pat.isPrefixOf (c :: cs) = true
        · rw [if_pos hpre, if_pos hpre, ih _ hdrop1 f2 hdrop2]
        · rw [if_neg hpre, if_neg hpre, ih cs hcs f2 hcs2]

/-- The fuel argument of `replaceAllAux` is irrelevant once it covers the
list length. -/
theorem replaceAllAux_fuel (pat rep : List Char) :
    ∀ f1, ∀ s : List Char, s.length ≤ f1 → ∀ f2, s.length ≤ f2 →
      replaceAllAux pat rep f1 s = replaceAllAux pat rep f2 s := by
  intro f1
  induction f1 with
  | zero =>
    intro s hs f2 _
    have : s = [] := List.length_eq_zero.mp (Nat.le_zero.mp hs)
    subst this
    cases f2 <;> rfl
  | succ f1 ih =>
    intro s hs f2 hs2
    cases s with
    | nil => cases f2 <;> rfl
    | cons c cs =>
      cases f2 with
      | zero => exact absurd hs2 (by simp)
      | succ f2 =>
        show (if pat.isPrefixOf (c :: cs) then rep ++ replaceAllAux pat rep f1 (cs.drop (pat.length - 1))
            else c :: replaceAllAux pat rep f1 cs)
          = (if pat.isPrefixOf (c :: cs) then rep ++ replaceAllAux pat rep f2 (cs.drop (pat.length - 1))
            else c :: replaceAllAux pat rep f2 cs)
        have hcs : cs.length ≤ f1 := by simp at hs; omega
        have hcs2 : cs.length ≤ f2 := by simp at hs2; omega
        have hdrop1 : (cs.drop (pat.length - 1)).length ≤ f1 := by
          rw [List.length_drop]; omega
        have hdrop2 : (cs.drop (pat.length - 1)).length ≤ f2 := by
          rw [List.length_drop]; omega
        by_cases hpre : pat.isPrefixOf (c :: cs) = true
        · rw [if_pos hpre, if_pos hpre, ih _ hdrop1 f2 hdrop2]
        · rw [if_neg hpre, if_neg hpre, ih cs hcs f2 hcs2]

/-- Unfolding equation for `countMatchesPos` on a cons cell. -/
theorem countMatchesPos_cons (pat : List Char) (c : Char) (cs : List Char) :
    countMatchesPos pat (c :: cs) =
      if pat.isPrefixOf (c :: cs) then 1 + countMatchesPos pat (cs.drop (pat.length - 1))
      else countMatchesPos pat cs := by
  show (if pat.isPrefixOf (c :: cs) then 1 + countMatchesAux pat cs.length (cs.drop (pat.length - 1))
      else countMatchesAux pat cs.length cs) = _
  by_cases hpre : pat.isPrefixOf (c :: cs) = true
  · rw [if_pos hpre, if_pos hpre,
      countMatchesAux_fuel pat cs.length _ (by rw [List.length_drop]; omega)
        (cs.drop (pat.length - 1)).length (Nat.le_refl _)]
    rfl
  · rw [if_neg hpre, if_neg hpre]
    rfl

/-- Unfolding equation for `replaceAllPos` on a cons cell. -/
theorem replaceAllPos_cons (pat rep : List Char) (c : Char) (cs : List Char) :
    replaceAllPos pat rep (c :: cs) =
      if pat.isPrefixOf (c :: cs) then rep ++ replaceAllPos pat rep (cs.drop (pat.length - 1))
      else c :: replaceAllPos pat rep cs := by
  show (if pat.isPrefixOf (c :: cs) then rep ++ replaceAllAux pat rep cs.length (cs.drop (pat.length - 1))
      else c :: replaceAllAux pat rep cs.length cs) = _
  by_cases hpre : pat.isPrefixOf (c :: cs) = true
  · rw [if_pos hpre, if_pos hpre,
      replaceAllAux_fuel pat rep cs.length _ (by rw [List.length_drop]; omega)
        (cs.drop (pat.length - 1)).length (Nat.le_refl _)]
    rfl
  · rw [if_neg hpre, if_neg hpre]
    rfl

/-- When the pattern does not occur, replacement is the identity. -/
theorem replaceAllPos_of_count_zero (pat rep : List Char) :
    ∀ n, ∀ s : List Char, s.length ≤ n → countMatchesPos pat s = 0 →
      replaceAllPos pat rep s = s := by
  intro n
  induction n with
  | zero =>
    intro s hs _
    have : s = [] := List.length_eq_zero.mp (Nat.le_zero.mp hs)
    subst this
    rfl
  | succ n ih =>
    intro s hs hcount
    cases s with
    | nil => rfl
    | cons c cs =>
      rw [countMatchesPos_cons] at hcount
      rw [replaceAllPos_cons]
      by_cases hpre : pat.isPrefixOf (c :: cs) = true
      · rw [if_pos hpre] at hcount
        omega
      · rw [if_neg hpre] at hcount
        rw [if_neg hpre, ih cs (by simp at hs; omega) hcount]

/-- When a nonempty pattern occurs exactly once, the input decomposes around
that occurrence and replacement swaps it for the replacement string. -/
theorem replaceAllPos_of_count_one (pat rep : List Char) (hpat : pat ≠ []) :
    ∀ n, ∀ s : List Char, s.length ≤ n → countMatchesPos pat s = 1 →
      ∃ pre post, s = pre ++ (pat ++ post) ∧
        replaceAllPos pat rep s = pre ++ (rep ++ post) := by
  intro n
  induction n with
  | zero =>
    intro s hs hcount
    have : s = [] := List.length_eq_zero.mp (Nat.le_zero.mp hs)
    subst this
    exact absurd hcount (by simp [countMatchesPos, countMatchesAux])
  | succ n ih =>
    intro s hs hcount
    cases s with
    | nil => exact absurd hcount (by simp [countMatchesPos, countMatchesAux])
    | cons c cs =>
      rw [countMatchesPos_cons] at hcount
      rw [replaceAllPos_cons]
      by_cases hpre : pat.isPrefixOf (c :: cs) = true
      · rw [if_pos hpre] at hcount
        have hzero : countMatchesPos pat (cs.drop (pat.length - 1)) = 0 := by omega
        obtain ⟨t, ht⟩ := List.isPrefixOf_iff_prefix.mp hpre
        obtain ⟨m, hm⟩ : ∃ m, pat.length = m + 1 := by
          cases hpl : pat.length with
          | zero => exact absurd (List.length_eq_zero.mp hpl) hpat
          | succ m => exact ⟨m, rfl⟩
        have hdrop : cs.drop (pat.length - 1) = t := by
          have h1 : (c :: cs).drop pat.length = t := by
            rw [← ht]
            exact List.drop_left pat t
          rw [hm] at h1
          rw [List.drop_succ_cons] at h1
          rw [hm]
          simpa using h1
        refine ⟨[], t, by simpa using ht.symm, ?_⟩
        rw [if_pos hpre, hdrop,
          replaceAllPos_of_count_zero pat rep t.length t (Nat.le_refl _) (hdrop ▸ hzero)]
        simp
      · rw [if_neg hpre] at hcount
        obtain ⟨pre, post, hdecomp, hrepl⟩ := ih cs (by simp at hs; omega) hcount
        refine ⟨c :: pre, post, by simp [hdecomp], ?_⟩
        rw [if_neg hpre, hrepl]
        simp

/-- C6 counterexample: the claim states that every `str_replace` call whose
old string occurs zero times returns `success=false` with a descriptive
error.  With an absent old string of seventeen three-byte characters
(51 bytes, byte 50 inside a character) the call panics instead of returning
a result, through the byte slice `&old_str[..50]` at memory_tool.rs line
303. -/
theorem C6_counterexample :
    countMatches (List.replicate 17 '☃') ['h', 'i'] = 0 ∧
      strReplaceContent "notes.md" ['h', 'i'] (List.replicate 17 '☃') ['z'] = .panicked := by
  decide

/-- C6 (amended): except when the old string is absent, longer than 50
bytes, and byte 50 is not a character boundary (where the truncated
error-message slice panics — the bug recorded by the counterexample), a
`str_replace` call behaves as claimed: zero occurrences return
`success=false` with a descriptive error and leave the content bit-identical;
multiple occurrences likewise; exactly one occurrence replaces that single
occurrence by the new string. -/
theorem C6_str_replace_amended (path : String) (content old new : List Char) :
    (countMatches old content = 0 → (utf8Len old ≤ 50 ∨ isCharBoundary old 50 = true) →
      strReplaceContent path content old new
        = .completed (memError (strNotFoundMsg old)) content) ∧
    (countMatches old content > 1 →
      strReplaceContent path content old new
        = .completed (memError ("String found " ++ toString (countMatches old content)
            ++ " times in file. Please provide a more unique string.")) content) ∧
    (countMatches old content = 1 →
      ∃ pre post, content = pre ++ (old ++ post) ∧
        strReplaceContent path content old new
          = .completed (memSuccess ("Successfully replaced text in " ++ path))
              (pre ++ (new ++ post))) := by
  refine ⟨?_, ?_, ?_⟩
  · intro h0 hb
    simp [strReplaceContent, h0]
    intro hh
    rcases hb with hb | hb
    · omega
    · exact hb
  · intro h1
    have h0 : ¬ countMatches old content = 0 := by omega
    simp [strReplaceContent, h0, h1]
  · intro h1
    have h0 : ¬ countMatches old content = 0 := by omega
    have h2 : ¬ countMatches old content > 1 := by omega
    by_cases hp : old = []
    · subst hp
      have hc : content = [] := by
        have h1' := h1
        simp [countMatches] at h1'
        exact h1'
      subst hc
      refine ⟨[], [], by simp, ?_⟩
      simp [strReplaceContent, countMatches, replaceAll]
    · have h1' : countMatchesPos old content = 1 := by
        simpa [countMatches, hp] using h1
      obtain ⟨pre, post, hdecomp, hrepl⟩ :=
        replaceAllPos_of_count_one old new hp content.length content (Nat.le_refl _) h1'
      refine ⟨pre, post, hdecomp, ?_⟩
      simp [strReplaceContent, h0, h2, replaceAll, hp, hrepl]

/-- C6 witness: a single occurrence is replaced, decomposing the content
around it. -/
theorem C6_str_replace_amended_witness :
    ∃ pre post, ['a', 'b'] = pre ++ (['a'] ++ post) ∧
      strReplaceContent "m.md" ['a', 'b'] ['a'] ['z']
        = .completed (memSuccess ("Successfully replaced text in " ++ "m.md"))
            (pre ++ (['z'] ++ post)) :=
  (C6_str_replace_amended "m.md" ['a', 'b'] ['a'] ['z']).2.2 (by decide)

/-! ## C4 -/

/-- Indices in `enumFrom k l` lie in `[k, k + length)`. -/
theorem mem_enumFrom_bounds {α : Type} :
    ∀ (l : List α) (k : Nat) (p : Nat × α),
      p ∈ l.enumFrom k → k ≤ p.1 ∧ p.1 < k + l.length := by
  intro l
  induction l with
  | nil => intro k p hp; simp [List.enumFrom] at hp
  | cons x xs ih =>
    intro k p hp
    rw [List.enumFrom_cons] at hp
    rcases List.mem_cons.mp hp with rfl | hp
    · simp only [List.length_cons]
      omega
    · have := ih (k + 1) p hp
      simp only [List.length_cons]
      omega

/-- Dropping then taking a window of an enumerated list is filtering its
indices to the window. -/
theorem enumFrom_drop_take_eq_filter {α : Type} :
    ∀ (l : List α) (k a b : Nat),
      ((l.enumFrom k).drop a).take (b - a)
        = (l.enumFrom k).filter (fun p => decide (k + a ≤ p.1) && decide (p.1 < k + b)) := by
  intro l
  induction l with
  | nil => intro k a b; simp [List.enumFrom]
  | cons x xs ih =>
    intro k a b
    rw [List.enumFrom_cons]
    cases a with
    | zero =>
      rw [List.drop_zero, Nat.sub_zero]
      cases b with
      | zero =>
        rw [List.take_zero]
        symm
        rw [List.filter_eq_nil_iff]
        intro p hp
        have hb : k ≤ p.1 ∧ p.1 < k + (x :: xs).length := by
          apply mem_enumFrom_bounds
          rw [List.enumFrom_cons]
          exact hp
        simp only [Bool.and_eq_true, decide_eq_true_eq, not_and]
        omega
      | succ b =>
        rw [List.take_succ_cons, List.filter_cons]
        have hcond : ((fun p : Nat × α => decide (k + 0 ≤ p.1) && decide (p.1 < k + (b + 1)))
            (k, x)) = true := by
          simp
        rw [if_pos hcond]
        have hih := ih (k + 1) 0 b
        rw [List.drop_zero, Nat.sub_zero] at hih
        rw [hih]
        congr 1
        apply List.filter_congr
        intro p hp
        have hb := mem_enumFrom_bounds xs (k + 1) p hp
        rw [← Bool.decide_and, ← Bool.decide_and, decide_eq_decide]
        omega
    | succ a =>
      rw [List.drop_succ_cons]
      have hsub : b - (a + 1) = (b - 1) - a := by omega
      rw [hsub, ih (k + 1) a (b - 1), List.filter_cons]
      have hcond : ¬ (((fun p : Nat × α => decide (k + (a + 1) ≤ p.1) && decide (p.1 < k + b))
          (k, x)) = true) := by
        simp only [Bool.and_eq_true, decide_eq_true_eq, not_and]
        omega
      rw [if_neg hcond]
      apply List.filter_congr
      intro p hp
      have hb := mem_enumFrom_bounds xs (k + 1) p hp
      rw [← Bool.decide_and, ← Bool.decide_and, decide_eq_decide]
      omega

/-- C4 counterexample: the claim states that the view range is inclusive,
1-indexed and clamped, so the selection for a range whose start exceeds its
end is empty.  On a three-line file with range `(3, 1)`, the code computes
`end - start` as a wrapping usize subtraction (memory_tool.rs line 235),
which makes the iterator take essentially everything: line 3 is returned,
where the inclusive reading demands an empty selection. -/
theorem C4_counterexample :
    readFileSelection [['a'], ['b'], ['c']] (some (3, 1)) = [(3, ['c'])] ∧
      viewRangeSpec [['a'], ['b'], ['c']] 3 1 = [] := by
  constructor
  · rfl
  · rfl

/-- C4 (amended): for ranges whose 0-indexed start `s - 1` does not exceed
the clamped end `min e N`, the call returns exactly the inclusive, 1-indexed,
clamped selection; when the start exceeds the clamped end, the usize
subtraction wraps and the call returns every line from the start through the
last line (empty when the start is past the end of the file).  Either way
the call returns normally in release builds. -/
theorem C4_view_range_amended (lines : List (List Char)) (s e : Nat)
    (hn : lines.length < 2 ^ 32) (hs : s < 2 ^ 32) (he : e < 2 ^ 32) :
    readFileSelection lines (some (s, e)) =
      if s - 1 ≤ min e lines.length then viewRangeSpec lines s e
      else viewRangeSpec lines s lines.length := by
  have hM : usizeMod = 18446744073709551616 := by norm_num [usizeMod]
  have henum : lines.enum = lines.enumFrom 0 := rfl
  show ((lines.enum.drop (s - 1)).take (wsub (min e lines.length) (s - 1))).map
      (fun p => (p.1 + 1, p.2)) = _
  set a := s - 1 with ha
  set n := lines.length with hlen
  set b := min e n with hb
  by_cases hcase : a ≤ b
  · rw [if_pos hcase]
    have hw : wsub b a = b - a := by
      simp only [wsub, hM]
      omega
    rw [hw, henum, enumFrom_drop_take_eq_filter lines 0 a b]
    unfold viewRangeSpec numberLines
    rw [henum, List.filter_map]
    congr 1
    apply List.filter_congr
    intro p hp
    have hbd := mem_enumFrom_bounds lines 0 p hp
    simp only [Function.comp]
    rw [← Bool.decide_and, ← Bool.decide_and, decide_eq_decide]
    omega
  · rw [if_neg hcase]
    have htake : (lines.enum.drop a).take (wsub b a) = lines.enum.drop a := by
      apply List.take_of_length_le
      rw [List.length_drop, henum, List.enumFrom_length]
      simp only [wsub, hM]
      omega
    have hdrop : lines.enum.drop a = (lines.enum.drop a).take (n - a) := by
      symm
      apply List.take_of_length_le
      rw [List.length_drop, henum, List.enumFrom_length]
    rw [htake, hdrop, henum, enumFrom_drop_take_eq_filter lines 0 a n]
    unfold viewRangeSpec numberLines
    rw [henum, List.filter_map]
    congr 1
    apply List.filter_congr
    intro p hp
    have hbd := mem_enumFrom_bounds lines 0 p hp
    simp only [Function.comp]
    rw [← Bool.decide_and, ← Bool.decide_and, decide_eq_decide]
    omega

/-- C4 witness: the amended behaviour at the counterexample's input — the
wrapped selection equals all lines from the start through the last line. -/
theorem C4_view_range_amended_witness :
    readFileSelection [['a'], ['b'], ['c']] (some (3, 1))
      = viewRangeSpec [['a'], ['b'], ['c']] 3 3 := by
  have h := C4_view_range_amended [['a'], ['b'], ['c']] 3 1 (by norm_num) (by norm_num)
    (by norm_num)
  simpa using h
